import Mathlib

/-!
Verification of the coordinate-normalization core of `mapa_proposta.py`
(`parse_coordinate` and the validation part of `carregar_dados`).

Numbers are embedded as exact rationals `ℚ`.  Python's `float` builtin,
applied to a string, is modelled as a reader of plain decimal literals
(optional sign, digits, optional fractional part); exponent notation,
underscore separators and the `inf`/`nan` literals are outside the model —
a non-finite value would fail `parse_coordinate`'s range check anyway, so
the observable outcome at the `parse_coordinate` level is unchanged.
Character classes (`str.upper`, `str.capitalize`, the regex classes
`\s`/`\w`) are modelled on ASCII, which covers every character the
parser's own patterns can accept.
-/

namespace Mapa

/-- ASCII whitespace as recognised by Python's `str.strip` and the regex
class of whitespace characters: space, tab, newline, carriage return,
vertical tab, form feed. -/
def isPySpace (c : Char) : Bool :=
  c = ' ' || c = '\t' || c = '\n' || c = '\r' || c = '\x0b' || c = '\x0c'

/-- Python `str.strip`: drop whitespace from both ends. -/
def pyStrip (l : List Char) : List Char :=
  ((l.dropWhile isPySpace).reverse.dropWhile isPySpace).reverse

/-- ASCII model of Python `str.upper` on one character. -/
def upChar (c : Char) : Char :=
  match c with
  | 'a' => 'A' | 'b' => 'B' | 'c' => 'C' | 'd' => 'D' | 'e' => 'E'
  | 'f' => 'F' | 'g' => 'G' | 'h' => 'H' | 'i' => 'I' | 'j' => 'J'
  | 'k' => 'K' | 'l' => 'L' | 'm' => 'M' | 'n' => 'N' | 'o' => 'O'
  | 'p' => 'P' | 'q' => 'Q' | 'r' => 'R' | 's' => 'S' | 't' => 'T'
  | 'u' => 'U' | 'v' => 'V' | 'w' => 'W' | 'x' => 'X' | 'y' => 'Y'
  | 'z' => 'Z' | other => other

/-- ASCII model of Python `str.lower` on one character. -/
def lowChar (c : Char) : Char :=
  match c with
  | 'A' => 'a' | 'B' => 'b' | 'C' => 'c' | 'D' => 'd' | 'E' => 'e'
  | 'F' => 'f' | 'G' => 'g' | 'H' => 'h' | 'I' => 'i' | 'J' => 'j'
  | 'K' => 'k' | 'L' => 'l' | 'M' => 'm' | 'N' => 'n' | 'O' => 'o'
  | 'P' => 'p' | 'Q' => 'q' | 'R' => 'r' | 'S' => 's' | 'T' => 't'
  | 'U' => 'u' | 'V' => 'v' | 'W' => 'w' | 'X' => 'x' | 'Y' => 'y'
  | 'Z' => 'z' | other => other

/-- Regex word character (ASCII): letter, digit or underscore. -/
def isWordChar (c : Char) : Bool :=
  c.isAlphanum || c = '_'

/-- The four cardinal letters searched by the regex of `parse_coordinate`. -/
def isNSWE (c : Char) : Bool :=
  c = 'N' || c = 'S' || c = 'W' || c = 'E'

/-- A word boundary exists before a word character at this position iff the
preceding character (`none` at the start of the string) is not a word
character. -/
def boundaryBefore : Option Char → Bool
  | none => true
  | some c => !(isWordChar c)

/-- A word boundary exists after a word character iff the rest of the string
is empty or starts with a non-word character. -/
def boundaryAfter : List Char → Bool
  | [] => true
  | c :: _ => !(isWordChar c)

/-- Scan for the first standalone cardinal letter, carrying the previous
character of the original string (regex search for a cardinal letter
enclosed in word boundaries). -/
def findWordAux : Option Char → List Char → Option Char
  | _, [] => none
  | prev, c :: rest =>
    if isNSWE c && boundaryBefore prev && boundaryAfter rest then some c
    else findWordAux (some c) rest

/-- First standalone N/S/W/E letter of the string, if any. -/
def findWordNSWE (l : List Char) : Option Char :=
  findWordAux none l

/-- Delete every standalone cardinal letter (regex substitution by the empty
string); boundaries are judged on the original string, as `re.sub` does. -/
def removeWordAux : Option Char → List Char → List Char
  | _, [] => []
  | prev, c :: rest =>
    if isNSWE c && boundaryBefore prev && boundaryAfter rest then
      removeWordAux (some c) rest
    else c :: removeWordAux (some c) rest

/-- Delete every standalone N/S/W/E letter. -/
def removeWordNSWE (l : List Char) : List Char :=
  removeWordAux none l

/-- Does `pat` match at the head of the list? -/
def headMatches : List Char → List Char → Bool
  | [], _ => true
  | _ :: _, [] => false
  | p :: ps, c :: cs => p = c && headMatches ps cs

/-- Substring containment (`pat in s` on Python strings). -/
def containsSub (pat : List Char) : List Char → Bool
  | [] => headMatches pat []
  | c :: cs => headMatches pat (c :: cs) || containsSub pat cs

/-- Auxiliary for `removeAll`, structurally recursive on a fuel bound by
the length of the list (every step consumes at least one character, so the
fuel never runs out on the initial call). -/
def removeAllAux (pat : List Char) : ℕ → List Char → List Char
  | 0, l => l
  | _ + 1, [] => []
  | fuel + 1, c :: cs =>
    if !pat.isEmpty && headMatches pat (c :: cs) then
      removeAllAux pat fuel (cs.drop (pat.length - 1))
    else c :: removeAllAux pat fuel cs

/-- `str.replace(pat, "")`: delete every non-overlapping occurrence of `pat`,
scanning left to right.  (For an empty `pat` the original list is kept; the
program only ever deletes non-empty hemisphere words.) -/
def removeAll (pat l : List Char) : List Char :=
  removeAllAux pat l.length l

/-- Decimal digit characters. -/
def digitChar : ℕ → Char
  | 0 => '0' | 1 => '1' | 2 => '2' | 3 => '3' | 4 => '4'
  | 5 => '5' | 6 => '6' | 7 => '7' | 8 => '8' | _ => '9'

/-- Numeric value of a digit character. -/
def digitVal (c : Char) : ℕ :=
  c.toNat - 48

/-- Value of a most-significant-first digit string. -/
def natOfDigits (l : List Char) : ℕ :=
  l.foldl (fun a c => 10 * a + digitVal c) 0

/-!
Exact rational arithmetic, written through `mkRat` so that closed terms
evaluate by plain kernel reduction (the field operations of `ℚ` are
`@[irreducible]`).  The lemmas `qNeg_eq`, `qAdd_eq`, `qMul_eq`,
`qDivNat_eq` and `qAbs_eq` below identify them with the field operations.
-/

/-- Negation on `ℚ` via `mkRat`. -/
def qNeg (a : ℚ) : ℚ := mkRat (-a.num) a.den

/-- Addition on `ℚ` via `mkRat`. -/
def qAdd (a b : ℚ) : ℚ := mkRat (a.num * b.den + b.num * a.den) (a.den * b.den)

/-- Multiplication on `ℚ` via `mkRat`. -/
def qMul (a b : ℚ) : ℚ := mkRat (a.num * b.num) (a.den * b.den)

/-- Division of a rational by a natural number via `mkRat`. -/
def qDivNat (a : ℚ) (n : ℕ) : ℚ := mkRat a.num (a.den * n)

/-- Absolute value on `ℚ` via the sign of the numerator. -/
def qAbs (a : ℚ) : ℚ := if a.num < 0 then qNeg a else a

/-- Value of an integer digit string `ip` with fractional digit string
`fp`: the rational `ip + fp / 10 ^ |fp|`. -/
def decValue (ip fp : List Char) : ℚ :=
  mkRat (natOfDigits ip * 10 ^ fp.length + natOfDigits fp) (10 ^ fp.length)

/-- The characters a decimal literal may contain: digits, signs and the
decimal point. -/
def isLitChar (c : Char) : Bool :=
  c.isDigit || c = '-' || c = '+' || c = '.'

/-- Unsigned decimal literal: digits, optionally followed by a point and
further digits, with at least one digit overall. -/
def readUnsigned (l : List Char) : Option ℚ :=
  match l.dropWhile Char.isDigit with
  | [] =>
    if (l.takeWhile Char.isDigit).isEmpty then none
    else some (decValue (l.takeWhile Char.isDigit) [])
  | c :: r2 =>
    if c = '.' then
      if (r2.dropWhile Char.isDigit).isEmpty
          && !((l.takeWhile Char.isDigit).isEmpty
                && (r2.takeWhile Char.isDigit).isEmpty) then
        some (decValue (l.takeWhile Char.isDigit) (r2.takeWhile Char.isDigit))
      else none
    else none

/-- Model of Python's `float` builtin on a string (finite decimal literals:
surrounding whitespace, optional sign, digits with optional fractional
part). -/
def readDecimal (l : List Char) : Option ℚ :=
  match pyStrip l with
  | [] => readUnsigned []
  | c :: r =>
    if c = '-' then (readUnsigned r).map qNeg
    else if c = '+' then readUnsigned r
    else readUnsigned (c :: r)

/-- One DMS numeric component: digits with an optional fractional part
(the fractional group is skipped when no digit follows the point, exactly
as the optional regex group would backtrack). -/
def takeNum (l : List Char) : Option (ℚ × List Char) :=
  if (l.takeWhile Char.isDigit).isEmpty then none
  else
    match l.dropWhile Char.isDigit with
    | [] => some (decValue (l.takeWhile Char.isDigit) [], [])
    | c :: r2 =>
      if c = '.' then
        if (r2.takeWhile Char.isDigit).isEmpty then
          some (decValue (l.takeWhile Char.isDigit) [], c :: r2)
        else
          some (decValue (l.takeWhile Char.isDigit) (r2.takeWhile Char.isDigit),
                r2.dropWhile Char.isDigit)
      else some (decValue (l.takeWhile Char.isDigit) [], c :: r2)

/-- Separator class between degrees and minutes: degree sign, colon or
whitespace. -/
def isDegSep (c : Char) : Bool :=
  c = '°' || c = ':' || isPySpace c

/-- Separator class between minutes and seconds: apostrophe, prime mark or
whitespace. -/
def isMinSep (c : Char) : Bool :=
  c = '\'' || c = '′' || isPySpace c

/-- Optional trailing seconds mark: double quote or double prime. -/
def isSecMark (c : Char) : Bool :=
  c = '"' || c = '″'

/-- One or more separator characters of class `p`. -/
def takeSeps (p : Char → Bool) : List Char → Option (List Char)
  | [] => none
  | c :: r => if p c then some (r.dropWhile p) else none

/-- The optional leading minus sign of the DMS degrees component. -/
def dmsSign (l : List Char) : Bool × List Char :=
  match l with
  | [] => (false, [])
  | c :: r => if c = '-' then (true, r) else (false, c :: r)

/-- End of the DMS pattern: nothing may remain but an optional single
seconds mark. -/
def dmsEnd (r5 : List Char) (out : Bool × ℚ × ℚ × ℚ) :
    Option (Bool × ℚ × ℚ × ℚ) :=
  match r5 with
  | [] => some out
  | [c] => if isSecMark c then some out else none
  | _ => none

/-- The anchored DMS pattern of `parse_coordinate`: optional minus sign,
degrees, separators, minutes, separators, seconds, optional seconds mark.
Returns the sign flag of the degrees text and the three non-negative
components.  (The pattern's only optional pieces are the fractional digit
groups and the trailing mark, for which the greedy reading coincides with
the regex's backtracking reading.) -/
def dmsParse (l : List Char) : Option (Bool × ℚ × ℚ × ℚ) :=
  (takeNum (dmsSign l).2).bind (fun x =>
    (takeSeps isDegSep x.2).bind (fun r2 =>
      (takeNum r2).bind (fun y =>
        (takeSeps isMinSep y.2).bind (fun r4 =>
          (takeNum r4).bind (fun z =>
            dmsEnd z.2 ((dmsSign l).1, x.1, y.1, z.1))))))

/-- The four hemisphere words, already upper-case. -/
def NORTE : List Char := ['N', 'O', 'R', 'T', 'E']

/-- The word for South. -/
def SUL : List Char := ['S', 'U', 'L']

/-- The word for East. -/
def LESTE : List Char := ['L', 'E', 'S', 'T', 'E']

/-- The word for West. -/
def OESTE : List Char := ['O', 'E', 'S', 'T', 'E']

/-- Hemisphere extraction of `parse_coordinate`: the four Portuguese words
are looked for first (by plain substring containment, first match wins and
is deleted everywhere); otherwise a standalone cardinal letter is searched
for and deleted. -/
def extractHem (c : List Char) : Option Char × List Char :=
  if containsSub NORTE c then (some 'N', removeAll NORTE c)
  else if containsSub SUL c then (some 'S', removeAll SUL c)
  else if containsSub LESTE c then (some 'E', removeAll LESTE c)
  else if containsSub OESTE c then (some 'W', removeAll OESTE c)
  else
    match findWordNSWE c with
    | some h => (some h, removeWordNSWE c)
    | none => (none, c)

/-- Input normalization of `parse_coordinate`: strip, decimal comma to
point, upper-case. -/
def normalize (l : List Char) : List Char :=
  ((pyStrip l).map (fun c => if c = ',' then '.' else c)).map upChar

/-- Sign resolution of `parse_coordinate`: S/W force the value negative,
N/E force it positive, and with no hemisphere the sign of the numeric text
is applied and a still-positive value is then forced negative. -/
def resolveSign (hem : Option Char) (sfn dec : ℚ) : ℚ :=
  if hem = some 'S' ∨ hem = some 'W' then qNeg (qAbs dec)
  else if hem = some 'N' ∨ hem = some 'E' then qAbs dec
  else
    let d := qMul sfn dec
    if 0 < d then qNeg d else d

/-- Final range check of `parse_coordinate`. -/
def rangeCheck (is_latitude : Bool) (dec : ℚ) : Option ℚ :=
  if is_latitude then
    if -90 ≤ dec ∧ dec ≤ 90 then some dec else none
  else
    if -180 ≤ dec ∧ dec ≤ 180 then some dec else none

/-- The sanity range of an axis: `[-90, 90]` for latitude, `[-180, 180]`
for longitude. -/
def inRange (is_latitude : Bool) (v : ℚ) : Prop :=
  if is_latitude then -90 ≤ v ∧ v ≤ 90 else -180 ≤ v ∧ v ≤ 180

instance (ax : Bool) (v : ℚ) : Decidable (inRange ax v) :=
  match ax with
  | true => inferInstanceAs (Decidable (-90 ≤ v ∧ v ≤ 90))
  | false => inferInstanceAs (Decidable (-180 ≤ v ∧ v ≤ 180))

/-- Python runtime errors that the modelled fragments can raise. -/
inductive PyErr where
  | typeError
  | valueError
  deriving DecidableEq

/-- `float` applied to the parser's internal string, as a fallible
operation: a string that is not a decimal literal raises a value error. -/
def pyFloat (c : List Char) : Except PyErr ℚ :=
  match readDecimal c with
  | some q => Except.ok q
  | none => Except.error PyErr.valueError

/-- A raw coordinate cell as `parse_coordinate` receives it: a string, a
numeric value, or some other object on which `float` raises. -/
inductive Raw where
  | str (s : String)
  | num (q : ℚ)
  | other
  deriving DecidableEq

/-- `float` applied to a non-string value: numbers coerce, anything else
raises a type error. -/
def pyFloatRaw : Raw → Except PyErr ℚ
  | Raw.num q => Except.ok q
  | _ => Except.error PyErr.typeError

/-- Numeric part of `parse_coordinate` on the hemisphere-stripped text:
DMS form first, then the decimal fallback whose `float` call catches
exactly the value error, as the source's handler does. -/
def parseNumeric (hem : Option Char) (c : List Char) (is_latitude : Bool) :
    Except PyErr (Option ℚ) :=
  match dmsParse c with
  | some (neg, dg, mn, sc) =>
    let degVal : ℚ := if neg then qNeg dg else dg
    let dec := qAdd (qAdd (qAbs degVal) (qDivNat mn 60)) (qDivNat sc 3600)
    let sfn : ℚ := if degVal < 0 then -1 else 1
    Except.ok (rangeCheck is_latitude (resolveSign hem sfn dec))
  | none =>
    match pyFloat c with
    | Except.error PyErr.valueError => Except.ok none
    | Except.error e => Except.error e
    | Except.ok d =>
      let sfn : ℚ := if d < 0 then -1 else 1
      Except.ok (rangeCheck is_latitude (resolveSign hem sfn (qAbs d)))

/-- Body of `parse_coordinate` on a string, with the possible Python
exceptions made explicit. -/
def parse_coordinate_str (s : String) (is_latitude : Bool) :
    Except PyErr (Option ℚ) :=
  let hc := extractHem (normalize s.toList)
  parseNumeric hc.1 (pyStrip hc.2) is_latitude

/-- `parse_coordinate` with explicit exception propagation.  A non-string
input is coerced by `float` and returned directly — with no range check —
under a handler that catches every error. -/
def parse_coordinate_exc (r : Raw) (is_latitude : Bool) :
    Except PyErr (Option ℚ) :=
  match r with
  | Raw.str s => parse_coordinate_str s is_latitude
  | _ =>
    match pyFloatRaw r with
    | Except.ok q => Except.ok (some q)
    | Except.error _ => Except.ok none

/-- `parse_coordinate`: the returned value, with `none` standing for the
source's `None`. -/
def parse_coordinate (r : Raw) (is_latitude : Bool) : Option ℚ :=
  match parse_coordinate_exc r is_latitude with
  | Except.ok v => v
  | Except.error _ => none

/-! ### Rendering a rational back to a decimal string

`carregar_dados` feeds `str(x)` to `parse_coordinate`; when a cell already
holds a number (as it does when the validated output is fed back in),
`str` renders it as a decimal literal.  `ratStr` models this for rationals
with a finite decimal expansion; Python's binary floats always render in a
form that `float` reads back to the same value, which is the property the
model keeps. -/

/-- Auxiliary for `natToRevDigits`, structurally recursive on a fuel bound
by the number itself (`n / 10 < n` for positive `n`, so the fuel never
runs out on the initial call). -/
def natToRevDigitsAux : ℕ → ℕ → List Char
  | 0, _ => []
  | fuel + 1, n =>
    if n = 0 then [] else digitChar (n % 10) :: natToRevDigitsAux fuel (n / 10)

/-- Little-endian digit characters of a natural number. -/
def natToRevDigits (n : ℕ) : List Char :=
  natToRevDigitsAux n n

/-- Digit characters of a natural number, most significant first. -/
def natToChars (n : ℕ) : List Char :=
  if n = 0 then ['0'] else (natToRevDigits n).reverse

/-- `q` has a finite decimal expansion: its reduced denominator divides a
power of ten. -/
def IsFiniteDec (q : ℚ) : Prop :=
  q.den ∣ 10 ^ q.den

instance (q : ℚ) : Decidable (IsFiniteDec q) :=
  inferInstanceAs (Decidable (q.den ∣ 10 ^ q.den))

/-- The least exponent `k` with `q.den ∣ 10 ^ k`, when one exists below
`q.den + 1` (it always does for a finite decimal). -/
def decExp (q : ℚ) : Option ℕ :=
  (List.range (q.den + 1)).find? (fun k => decide (q.den ∣ 10 ^ k))

/-- Exactly `k` fractional digit characters of `n % 10 ^ k`: the digits,
left-padded with zeros. -/
def fracChars (n k : ℕ) : List Char :=
  List.replicate (k - ((natToRevDigits (n % 10 ^ k)).reverse).length) '0'
    ++ (natToRevDigits (n % 10 ^ k)).reverse

/-- Decimal rendering of a rational with finite decimal expansion:
optional minus sign, integer digits, and — when the exponent is positive —
a point followed by exactly `k` fractional digits. -/
def ratStr (q : ℚ) : String :=
  match decExp q with
  | none => "0"
  | some k =>
    String.mk ((if q.num < 0 then ['-'] else [])
      ++ natToChars (q.num.natAbs * 10 ^ k / q.den / 10 ^ k)
      ++ (if k = 0 then []
          else '.' :: fracChars (q.num.natAbs * 10 ^ k / q.den) k))

/-! ### The validator (`carregar_dados`, lines 106-138)

The spreadsheet read and the debug printing are boundary plumbing; the
modelled part starts from a list of raw records (the six extracted
columns) and performs: text normalization, coordinate parsing of
`str(cell)`, the joint not-null and bounding-box filter, the override
table, and the country-state code. -/

/-- A coordinate cell as it sits in the data frame: a string, or already a
number (as after a previous validation pass). -/
inductive CellVal where
  | s (v : String)
  | q (v : ℚ)
  deriving DecidableEq

/-- Python `str` applied to a cell. -/
def pyStrCell : CellVal → String
  | CellVal.s v => v
  | CellVal.q v => ratStr v

/-- One raw input row: identifier, crop, municipality, state code and the
two coordinate cells. -/
structure RawRecord where
  numero_pi : Int
  cultura : String
  municipio : String
  uf : String
  latitude : CellVal
  longitude : CellVal
  deriving DecidableEq

/-- One surviving output row. -/
structure ValidRecord where
  numero_pi : Int
  cultura : String
  municipio : String
  uf : String
  latitude : ℚ
  longitude : ℚ
  estado : String
  deriving DecidableEq

/-- Python `str.capitalize` (ASCII): first character upper-cased, the rest
lower-cased. -/
def pyCapitalize (l : List Char) : List Char :=
  match l with
  | [] => []
  | c :: r => upChar c :: r.map lowChar

/-- The crop-type normalization `strip` then `capitalize`. -/
def normCultura (s : String) : String :=
  String.mk (pyCapitalize (pyStrip s.toList))

/-- The state-code normalization `strip` then `upper`. -/
def normUF (s : String) : String :=
  String.mk ((pyStrip s.toList).map upChar)

/-- The override table `correcoes`: identifier to literal coordinates. -/
def correcoes : List (Int × ℚ × ℚ) :=
  [(2520025827, (mkRat (-214755) 10000, mkRat (-561495) 10000)),
   (2520052513, (mkRat (-222765) 10000, mkRat (-531680) 10000))]

/-- Replace the coordinates by the override pair when the identifier is in
the table. -/
def applyCorrecoes (pi : Int) (lat lon : ℚ) : ℚ × ℚ :=
  match correcoes.find? (fun t => t.1 == pi) with
  | some t => (t.2.1, t.2.2)
  | none => (lat, lon)

/-- A row after text normalization and coordinate parsing. -/
structure ParsedRow where
  numero_pi : Int
  cultura : String
  municipio : String
  uf : String
  plat : Option ℚ
  plon : Option ℚ
  deriving DecidableEq

/-- Normalize the text fields and parse both coordinate cells through
`str`. -/
def parseRow (r : RawRecord) : ParsedRow :=
  { numero_pi := r.numero_pi
    cultura := normCultura r.cultura
    municipio := r.municipio
    uf := normUF r.uf
    plat := parse_coordinate (Raw.str (pyStrCell r.latitude)) true
    plon := parse_coordinate (Raw.str (pyStrCell r.longitude)) false }

/-- The joint filter: both coordinates parsed, and the pair inside the
regional bounding box.  (The source filters not-null and box in two steps;
on the floats involved the two-step filter keeps exactly these rows.) -/
def keepRow (p : ParsedRow) : Bool :=
  match p.plat, p.plon with
  | some la, some lo => decide (-34 ≤ la ∧ la ≤ 5 ∧ -74 ≤ lo ∧ lo ≤ -34)
  | _, _ => false

/-- Build the output row: override table, then the country-state code. -/
def finishRow (p : ParsedRow) (la lo : ℚ) : ValidRecord :=
  let c := applyCorrecoes p.numero_pi la lo
  { numero_pi := p.numero_pi
    cultura := p.cultura
    municipio := p.municipio
    uf := p.uf
    latitude := c.1
    longitude := c.2
    estado := "BR" ++ p.uf }

/-- The validation pipeline of `carregar_dados`: returns the surviving
rows and, for each rejected row, its identifier with the two parsed-or-null
coordinate values (the diagnostic listing). -/
def carregar_dados (rs : List RawRecord) :
    List ValidRecord × List (Int × Option ℚ × Option ℚ) :=
  let parsed := rs.map parseRow
  let kept := parsed.filter keepRow
  let valid := kept.map (fun p => finishRow p (p.plat.getD 0) (p.plon.getD 0))
  let rejected := (parsed.filter (fun p => !keepRow p)).map
    (fun p => (p.numero_pi, p.plat, p.plon))
  (valid, rejected)

/-- Feed a surviving row back as a raw row (the re-validation scenario):
the coordinates are now numeric cells. -/
def toRaw (v : ValidRecord) : RawRecord :=
  { numero_pi := v.numero_pi
    cultura := v.cultura
    municipio := v.municipio
    uf := v.uf
    latitude := CellVal.q v.latitude
    longitude := CellVal.q v.longitude }

/-! ## Lemmas: the `mkRat` arithmetic agrees with the field operations -/

theorem mkRat_eq_d (n : ℤ) (d : ℕ) : mkRat n d = (n : ℚ) / (d : ℚ) := by
  rw [Rat.mkRat_eq_divInt, Rat.divInt_eq_div]
  push_cast
  rfl

theorem qNeg_eq (a : ℚ) : qNeg a = -a := by
  rw [qNeg, mkRat_eq_d]
  push_cast
  rw [neg_div, Rat.num_div_den]

theorem qAdd_eq (a b : ℚ) : qAdd a b = a + b := by
  have ha : ((a.den : ℚ)) ≠ 0 := Nat.cast_ne_zero.mpr a.den_nz
  have hb : ((b.den : ℚ)) ≠ 0 := Nat.cast_ne_zero.mpr b.den_nz
  rw [qAdd, mkRat_eq_d]
  push_cast
  conv_rhs => rw [← Rat.num_div_den a, ← Rat.num_div_den b, div_add_div _ _ ha hb]
  ring

theorem qMul_eq (a b : ℚ) : qMul a b = a * b := by
  rw [qMul, mkRat_eq_d]
  push_cast
  conv_rhs => rw [← Rat.num_div_den a, ← Rat.num_div_den b, div_mul_div_comm]

theorem qDivNat_eq (a : ℚ) (n : ℕ) : qDivNat a n = a / n := by
  rw [qDivNat, mkRat_eq_d]
  push_cast
  rw [← div_div, Rat.num_div_den]

theorem qAbs_eq (a : ℚ) : qAbs a = |a| := by
  rw [qAbs]
  split
  · rw [qNeg_eq, abs_of_neg]
    rw [← not_le, ← Rat.num_nonneg, not_le]
    assumption
  · rw [abs_of_nonneg]
    rw [← Rat.num_nonneg]
    omega

/-! ## Lemmas: sign resolution and range check -/

theorem resolveSign_none_nonpos (sfn dec : ℚ) : resolveSign none sfn dec ≤ 0 := by
  rw [resolveSign, if_neg (by simp), if_neg (by simp)]
  simp only [qMul_eq, qNeg_eq]
  split
  · linarith
  · exact le_of_not_lt (by assumption)

theorem resolveSign_south (hem : Option Char) (sfn dec : ℚ)
    (h : hem = some 'S' ∨ hem = some 'W') : resolveSign hem sfn dec ≤ 0 := by
  rw [resolveSign, if_pos h, qNeg_eq, qAbs_eq]
  exact neg_nonpos.mpr (abs_nonneg dec)

theorem resolveSign_north (hem : Option Char) (sfn dec : ℚ)
    (h : hem = some 'N' ∨ hem = some 'E') : 0 ≤ resolveSign hem sfn dec := by
  have hne : ¬(hem = some 'S' ∨ hem = some 'W') := by
    rcases h with h | h <;> subst h <;> simp
  rw [resolveSign, if_neg hne, if_pos h, qAbs_eq]
  exact abs_nonneg dec

theorem rangeCheck_eq_some {ax : Bool} {d v : ℚ} (h : rangeCheck ax d = some v) :
    v = d ∧ inRange ax v := by
  rw [rangeCheck] at h
  rw [inRange]
  cases ax <;> simp only [Bool.false_eq_true, if_true, if_false] at h ⊢ <;>
    [skip; skip] <;> split at h <;> simp_all

theorem rangeCheck_of_inRange {ax : Bool} {d : ℚ} (h : inRange ax d) :
    rangeCheck ax d = some d := by
  rw [inRange] at h
  rw [rangeCheck]
  cases ax <;> simp_all

/-! ## Lemmas: totality of the parser -/

theorem parseNumeric_ok (hem : Option Char) (c : List Char) (ax : Bool) :
    ∃ v, parseNumeric hem c ax = Except.ok v := by
  rw [parseNumeric]
  rcases hd : dmsParse c with - | ⟨neg, dg, mn, sc⟩
  · rw [pyFloat]
    rcases hr : readDecimal c with - | d
    · exact ⟨none, rfl⟩
    · exact ⟨_, rfl⟩
  · exact ⟨_, rfl⟩

theorem parse_exc_ok (r : Raw) (ax : Bool) :
    parse_coordinate_exc r ax = Except.ok (parse_coordinate r ax) := by
  cases r with
  | str s =>
    obtain ⟨v, hv⟩ := parseNumeric_ok (extractHem (normalize s.toList)).1
      (pyStrip (extractHem (normalize s.toList)).2) ax
    have h2 : parse_coordinate_exc (Raw.str s) ax = Except.ok v := hv
    rw [parse_coordinate, h2]
  | num q => rfl
  | other => rfl

/-- The numeric result of the string path: `parse_coordinate` on a string
equals the value branch of `parseNumeric` after hemisphere extraction. -/
theorem parse_str_eq (s : String) (ax : Bool) :
    parseNumeric (extractHem (normalize s.toList)).1
      (pyStrip (extractHem (normalize s.toList)).2) ax
      = Except.ok (parse_coordinate (Raw.str s) ax) :=
  parse_exc_ok (Raw.str s) ax

/-! ## Lemmas: characterization of a successful parse -/

theorem parseNumeric_some {hem : Option Char} {c : List Char} {ax : Bool} {v : ℚ}
    (h : parseNumeric hem c ax = Except.ok (some v)) :
    (∃ sfn dec, v = resolveSign hem sfn dec) ∧ inRange ax v := by
  rw [parseNumeric] at h
  rcases hd : dmsParse c with - | ⟨neg, dg, mn, sc⟩ <;> rw [hd] at h
  · rw [pyFloat] at h
    rcases hr : readDecimal c with - | d <;> rw [hr] at h
    · simp at h
    · simp only [Except.ok.injEq] at h
      obtain ⟨hv, hr2⟩ := rangeCheck_eq_some h
      exact ⟨⟨_, _, hv⟩, hv ▸ hr2⟩
  · simp only [Except.ok.injEq] at h
    obtain ⟨hv, hr2⟩ := rangeCheck_eq_some h
    exact ⟨⟨_, _, hv⟩, hv ▸ hr2⟩

theorem parse_str_some {s : String} {ax : Bool} {v : ℚ}
    (h : parse_coordinate (Raw.str s) ax = some v) :
    (∃ sfn dec, v = resolveSign (extractHem (normalize s.toList)).1 sfn dec)
    ∧ inRange ax v := by
  apply parseNumeric_some (c := pyStrip (extractHem (normalize s.toList)).2)
  rw [parse_str_eq, h]

/-! ## Lemmas: DMS components -/

theorem decValue_nonneg (ip fp : List Char) : 0 ≤ decValue ip fp := by
  rw [decValue, mkRat_eq_d]
  positivity

theorem takeNum_nonneg {l : List Char} {q : ℚ} {r : List Char}
    (h : takeNum l = some (q, r)) : 0 ≤ q := by
  rw [takeNum] at h
  split at h
  · exact absurd h (by simp)
  split at h
  · simp only [Option.some.injEq, Prod.mk.injEq] at h
    exact h.1 ▸ decValue_nonneg _ _
  · split at h
    · split at h <;> simp only [Option.some.injEq, Prod.mk.injEq] at h <;>
        exact h.1 ▸ decValue_nonneg _ _
    · simp only [Option.some.injEq, Prod.mk.injEq] at h
      exact h.1 ▸ decValue_nonneg _ _

theorem dmsEnd_eq_some {r5 : List Char} {out out2 : Bool × ℚ × ℚ × ℚ}
    (h : dmsEnd r5 out = some out2) : out2 = out := by
  rcases r5 with - | ⟨c, - | ⟨c2, r7⟩⟩
  · simp only [dmsEnd, Option.some.injEq] at h
    exact h.symm
  · simp only [dmsEnd] at h
    split at h
    · exact (Option.some.inj h).symm
    · exact absurd h (by simp)
  · simp only [dmsEnd] at h
    exact absurd h (by simp)

theorem dmsParse_nonneg {l : List Char} {neg : Bool} {dg mn sc : ℚ}
    (h : dmsParse l = some (neg, dg, mn, sc)) : 0 ≤ dg ∧ 0 ≤ mn ∧ 0 ≤ sc := by
  rw [dmsParse] at h
  simp only [Option.bind_eq_some] at h
  obtain ⟨x, h1, r2, h2, y, h3, r4, h4, z, h5, hend⟩ := h
  have he := dmsEnd_eq_some hend
  obtain ⟨x1, x2⟩ := x
  obtain ⟨y1, y2⟩ := y
  obtain ⟨z1, z2⟩ := z
  simp only [Prod.mk.injEq] at he
  obtain ⟨-, e1, e2, e3⟩ := he
  exact ⟨e1 ▸ takeNum_nonneg h1, e2 ▸ takeNum_nonneg h3, e3 ▸ takeNum_nonneg h5⟩

theorem signIf_cases (x : ℚ) :
    (if x < 0 then (-1 : ℚ) else 1) = 1 ∨ (if x < 0 then (-1 : ℚ) else 1) = -1 := by
  by_cases h : x < 0
  · rw [if_pos h]
    exact Or.inr rfl
  · rw [if_neg h]
    exact Or.inl rfl

theorem abs_resolveSign (hem : Option Char) (sfn dec : ℚ)
    (hs : sfn = 1 ∨ sfn = -1) : |resolveSign hem sfn dec| = |dec| := by
  rw [resolveSign]
  split
  · rw [qNeg_eq, qAbs_eq, abs_neg, abs_abs]
  split
  · rw [qAbs_eq, abs_abs]
  · simp only [qMul_eq, qNeg_eq]
    split
    · rw [abs_neg, abs_mul]
      rcases hs with h | h <;> simp [h]
    · rw [abs_mul]
      rcases hs with h | h <;> simp [h]

/-! ## Claim theorems -/

/-- C1: for a string with no hemisphere marker (no NORTE/SUL/LESTE/OESTE
substring and no standalone N/S/W/E letter in the normalized text), the
sign of the numeric text is applied and a still-positive value is forced
negative, so every successful parse is non-positive; in particular
`parse("21.4755", latitude)` and `parse("-21.4755", latitude)` both return
`-21.4755`. -/
theorem C1_regional_default :
    (∀ (s : String) (ax : Bool) (v : ℚ),
        containsSub NORTE (normalize s.toList) = false →
        containsSub SUL (normalize s.toList) = false →
        containsSub LESTE (normalize s.toList) = false →
        containsSub OESTE (normalize s.toList) = false →
        findWordNSWE (normalize s.toList) = none →
        parse_coordinate (Raw.str s) ax = some v → v ≤ 0)
    ∧ parse_coordinate (Raw.str "21.4755") true = some (-21.4755)
    ∧ parse_coordinate (Raw.str "-21.4755") true = some (-21.4755) := by
  refine ⟨fun s ax v h1 h2 h3 h4 hfw hp => ?_, ?_, ?_⟩
  · have hext : extractHem (normalize s.toList) = (none, normalize s.toList) := by
      rw [extractHem, if_neg (by rw [h1]; exact Bool.false_ne_true),
        if_neg (by rw [h2]; exact Bool.false_ne_true),
        if_neg (by rw [h3]; exact Bool.false_ne_true),
        if_neg (by rw [h4]; exact Bool.false_ne_true), hfw]
    obtain ⟨⟨sfn, dec, hv⟩, -⟩ := parse_str_some hp
    rw [hext] at hv
    exact hv ▸ resolveSign_none_nonpos sfn dec
  · have h : parse_coordinate (Raw.str "21.4755") true
        = some (mkRat (-214755) 10000) := by decide
    rw [h, mkRat_eq_d]
    norm_num
  · have h : parse_coordinate (Raw.str "-21.4755") true
        = some (mkRat (-214755) 10000) := by decide
    rw [h, mkRat_eq_d]
    norm_num

/-- C1 witness: `"3.5"` has no hemisphere marker and parses to `-3.5 ≤ 0`. -/
theorem C1_witness :
    containsSub SUL (normalize "3.5".toList) = false ∧ (mkRat (-7) 2 : ℚ) ≤ 0 :=
  ⟨by decide, C1_regional_default.1 "3.5" true (mkRat (-7) 2) (by decide)
    (by decide) (by decide) (by decide) (by decide) (by decide)⟩

/-- C3 (amended): every successful parse of a STRING lies in the axis
range, and the spec's examples `"95.0"` / `"200.0"` fail; the amendment is
needed because a non-string numeric input is returned by `float` with no
range check at all (see the counterexample). -/
theorem C3_amended_range :
    (∀ (s : String) (ax : Bool) (v : ℚ),
        parse_coordinate (Raw.str s) ax = some v → inRange ax v)
    ∧ parse_coordinate (Raw.str "95.0") true = none
    ∧ parse_coordinate (Raw.str "200.0") false = none :=
  ⟨fun _ _ _ h => (parse_str_some h).2, by decide, by decide⟩

/-- C3 counterexample: the non-string input `95.0` is outside the latitude
range yet `parse` returns it. -/
theorem C3_counterexample :
    parse_coordinate (Raw.num 95) true = some 95 ∧ ¬ inRange true 95 := by
  refine ⟨rfl, ?_⟩
  rw [inRange]
  norm_num

/-- C3 witness at the string `"50.0"` (parsed as `-50`). -/
theorem C3_witness : inRange true (mkRat (-50) 1) :=
  C3_amended_range.1 "50.0" true (mkRat (-50) 1) (by decide)

/-- C6: an explicit hemisphere marker determines the sign of the result:
N/E force a non-negative value, S/W a non-positive one, whatever sign the
numeric text carried. -/
theorem C6_hemisphere_dominance (s : String) (ax : Bool) (h : Char) (v : ℚ)
    (hh : (extractHem (normalize s.toList)).1 = some h)
    (hp : parse_coordinate (Raw.str s) ax = some v) :
    ((h = 'N' ∨ h = 'E') → 0 ≤ v) ∧ ((h = 'S' ∨ h = 'W') → v ≤ 0) := by
  obtain ⟨⟨sfn, dec, hv⟩, -⟩ := parse_str_some hp
  rw [hh] at hv
  subst hv
  constructor
  · intro hne
    apply resolveSign_north
    rcases hne with h1 | h1 <;> rw [h1] <;> [exact Or.inl rfl; exact Or.inr rfl]
  · intro hsw
    apply resolveSign_south
    rcases hsw with h1 | h1 <;> rw [h1] <;> [exact Or.inl rfl; exact Or.inr rfl]

/-- C6 witness: `"21.5 N"` carries an `N` marker and parses to `21.5 ≥ 0`. -/
theorem C6_witness : (0 : ℚ) ≤ mkRat 43 2 :=
  (C6_hemisphere_dominance "21.5 N" true 'N' (mkRat 43 2)
    (by decide) (by decide)).1 (Or.inl rfl)

/-- C7: whenever the (hemisphere-stripped) text matches the DMS pattern,
the magnitude of the result is `|degrees| + minutes/60 + seconds/3600`
(`dmsParse` returns the degrees magnitude with its sign separated); and
the spec's DMS example agrees with its decimal form within `1/1000`. -/
theorem C7_dms_equivalence :
    (∀ (s : String) (ax : Bool) (neg : Bool) (dg mn sc : ℚ) (v : ℚ),
        dmsParse (pyStrip (extractHem (normalize s.toList)).2)
          = some (neg, dg, mn, sc) →
        parse_coordinate (Raw.str s) ax = some v →
        |v| = dg + mn / 60 + sc / 3600)
    ∧ (∃ v1 v2 : ℚ,
        parse_coordinate (Raw.str "21°28'32\" S") true = some v1 ∧
        parse_coordinate (Raw.str "-21.4755") true = some v2 ∧
        |v1 - v2| ≤ 1 / 1000) := by
  constructor
  · intro s ax neg dg mn sc v hd hp
    have he := parse_str_eq s ax
    rw [parseNumeric, hd, hp] at he
    simp only [Except.ok.injEq] at he
    obtain ⟨hv, -⟩ := rangeCheck_eq_some he
    obtain ⟨hdg, hmn, hsc⟩ := dmsParse_nonneg hd
    subst hv
    rw [abs_resolveSign _ _ _ (signIf_cases _)]
    have habs : qAbs (if neg then qNeg dg else dg) = dg := by
      cases neg
      · simp only [Bool.false_eq_true, if_false]
        rw [qAbs_eq, abs_of_nonneg hdg]
      · simp only [if_true]
        rw [qAbs_eq, qNeg_eq, abs_neg, abs_of_nonneg hdg]
    rw [qAdd_eq, qAdd_eq, habs, qDivNat_eq, qDivNat_eq]
    rw [abs_of_nonneg (by
      refine add_nonneg (add_nonneg hdg ?_) ?_ <;>
        exact div_nonneg (by assumption) (by positivity))]
    push_cast
    ring
  · refine ⟨mkRat (-77312) 3600, mkRat (-214755) 10000, by decide, by decide, ?_⟩
    rw [mkRat_eq_d, mkRat_eq_d, abs_le]
    constructor <;> norm_num

/-- C7 witness: the DMS example `"21°28'32\" S"` has magnitude
`21 + 28/60 + 32/3600`. -/
theorem C7_witness :
    |(mkRat (-77312) 3600 : ℚ)| = 21 + 28 / 60 + 32 / 3600 :=
  C7_dms_equivalence.1 "21°28'32\" S" true false 21 28 32
    (mkRat (-77312) 3600) (by decide) (by decide)

/-- C9: `parse_coordinate` never lets a Python exception escape: on every
input the explicit-exception model returns a value (the handlers cover
every raised error). -/
theorem C9_no_unhandled_error (r : Raw) (ax : Bool) :
    ∃ v, parse_coordinate_exc r ax = Except.ok v :=
  ⟨parse_coordinate r ax, parse_exc_ok r ax⟩

/-- C10: hemisphere words are found by plain substring containment: any
normalized text containing `SUL` (and not `NORTE`) is treated as South —
the three letters are deleted wherever they occur — and every successful
parse is then non-positive. -/
theorem C10_sul_substring (s : String) (ax : Bool)
    (hn : containsSub NORTE (normalize s.toList) = false)
    (hs : containsSub SUL (normalize s.toList) = true) :
    extractHem (normalize s.toList)
      = (some 'S', removeAll SUL (normalize s.toList))
    ∧ (∀ v : ℚ, parse_coordinate (Raw.str s) ax = some v → v ≤ 0) := by
  have hext : extractHem (normalize s.toList)
      = (some 'S', removeAll SUL (normalize s.toList)) := by
    rw [extractHem, if_neg (by rw [hn]; exact Bool.false_ne_true), if_pos hs]
  refine ⟨hext, fun v h => ?_⟩
  obtain ⟨⟨sfn, dec, hv⟩, -⟩ := parse_str_some h
  rw [hext] at hv
  exact hv ▸ resolveSign_south _ sfn dec (Or.inl rfl)

/-- C10 witness: `SUL` is detected even embedded inside `CONSULTA`. -/
theorem C10_witness :
    extractHem (normalize "21.5 CONSULTA".toList)
      = (some 'S', removeAll SUL (normalize "21.5 CONSULTA".toList)) :=
  (C10_sul_substring "21.5 CONSULTA" true (by decide) (by decide)).1

/-! ## Lemmas: invariants of the validator output -/

theorem mem_valid_cases {rs : List RawRecord} {v : ValidRecord}
    (hv : v ∈ (carregar_dados rs).1) :
    ∃ r p, r ∈ rs ∧ p = parseRow r ∧ keepRow p = true
      ∧ v = finishRow p (p.plat.getD 0) (p.plon.getD 0) := by
  rw [carregar_dados] at hv
  simp only [List.mem_map, List.mem_filter] at hv
  obtain ⟨p, ⟨hpm, hpk⟩, hpv⟩ := hv
  obtain ⟨r, hr, hpr⟩ := hpm
  exact ⟨r, p, hr, hpr.symm, hpk, hpv.symm⟩

theorem keepRow_box {p : ParsedRow} (h : keepRow p = true) :
    ∃ la lo, p.plat = some la ∧ p.plon = some lo ∧
      -34 ≤ la ∧ la ≤ 5 ∧ -74 ≤ lo ∧ lo ≤ -34 := by
  rw [keepRow] at h
  rcases h1 : p.plat with - | la <;> rw [h1] at h
  · simp at h
  rcases h2 : p.plon with - | lo <;> rw [h2] at h
  · simp at h
  simp only [decide_eq_true_eq] at h
  exact ⟨la, lo, rfl, rfl, h.1, h.2.1, h.2.2.1, h.2.2.2⟩

theorem correcoes_box {t : Int × ℚ × ℚ} (ht : t ∈ correcoes) :
    -34 ≤ t.2.1 ∧ t.2.1 ≤ 5 ∧ -74 ≤ t.2.2 ∧ t.2.2 ≤ -34 := by
  simp only [correcoes, List.mem_cons, List.not_mem_nil, or_false] at ht
  rcases ht with h | h <;> rw [h] <;>
    refine ⟨?_, ?_, ?_, ?_⟩ <;> norm_num [mkRat_eq_d]

theorem mem_valid_box {rs : List RawRecord} {v : ValidRecord}
    (hv : v ∈ (carregar_dados rs).1) :
    -34 ≤ v.latitude ∧ v.latitude ≤ 5 ∧ -74 ≤ v.longitude ∧ v.longitude ≤ -34 := by
  obtain ⟨r, p, hr, hpr, hk, hfin⟩ := mem_valid_cases hv
  obtain ⟨la, lo, h1, h2, b1, b2, b3, b4⟩ := keepRow_box hk
  rw [hfin, finishRow]
  rcases hf : correcoes.find? (fun t => t.1 == p.numero_pi) with - | t
  · simp only [applyCorrecoes, hf, h1, h2, Option.getD_some]
    exact ⟨b1, b2, b3, b4⟩
  · have ht := List.mem_of_find?_eq_some hf
    simp only [applyCorrecoes, hf]
    exact correcoes_box ht

theorem mem_valid_override {rs : List RawRecord} {v : ValidRecord}
    {t : Int × ℚ × ℚ} (hv : v ∈ (carregar_dados rs).1)
    (ht : t ∈ correcoes) (hpi : t.1 = v.numero_pi) :
    v.latitude = t.2.1 ∧ v.longitude = t.2.2 := by
  obtain ⟨r, p, hr, hpr, hk, hfin⟩ := mem_valid_cases hv
  have hnp : v.numero_pi = p.numero_pi := by rw [hfin]; rfl
  rw [hnp] at hpi
  have hfind : correcoes.find? (fun t' => t'.1 == p.numero_pi) = some t := by
    simp only [correcoes, List.mem_cons, List.not_mem_nil, or_false] at ht
    rcases ht with h | h <;> rw [correcoes, ← hpi, h] <;> rfl
  rw [hfin, finishRow]
  simp only [applyCorrecoes, hfind]
  constructor <;> first | rfl | trivial

theorem mem_valid_shape {rs : List RawRecord} {v : ValidRecord}
    (hv : v ∈ (carregar_dados rs).1) :
    v.estado = "BR" ++ v.uf
    ∧ (∃ r ∈ rs, v.cultura = normCultura r.cultura ∧ v.uf = normUF r.uf) := by
  obtain ⟨r, p, hr, hpr, hk, hfin⟩ := mem_valid_cases hv
  constructor
  · rw [hfin]
    rfl
  · refine ⟨r, hr, ?_, ?_⟩ <;> rw [hfin, hpr] <;> rfl

/-- C2 (amended): a record present in the output whose identifier is in the
override table carries exactly the literal override coordinates, whatever
its raw text parsed to.  (The unamended claim fails: the override step runs
after the filter, so a record whose raw text fails parsing or the bounding
box never reaches the output — see the counterexample.) -/
theorem C2_override_precedence {rs : List RawRecord} {v : ValidRecord}
    {t : Int × ℚ × ℚ} (hv : v ∈ (carregar_dados rs).1)
    (ht : t ∈ correcoes) (hpi : t.1 = v.numero_pi) :
    v.latitude = t.2.1 ∧ v.longitude = t.2.2 :=
  mem_valid_override hv ht hpi

/-- C2 counterexample: the identifier 2520025827 is in the override table,
yet a record with that identifier whose latitude text parses out of the
bounding box is absent from the output — the override does not resurrect
it. -/
theorem C2_counterexample :
    correcoes.map Prod.fst = [2520025827, 2520052513]
    ∧ (carregar_dados [⟨2520025827, "SOJA", "X", "MS",
        CellVal.s "50.0", CellVal.s "-56.0"⟩]).1 = [] := by
  exact ⟨rfl, by decide⟩

/-- C2 witness: a surviving record with the overridden identifier gets the
literal override pair. -/
theorem C2_witness :
    (⟨2520025827, "Soja", "X", "MS", mkRat (-214755) 10000,
      mkRat (-561495) 10000, "BRMS"⟩ : ValidRecord).latitude
        = mkRat (-214755) 10000
    ∧ (⟨2520025827, "Soja", "X", "MS", mkRat (-214755) 10000,
      mkRat (-561495) 10000, "BRMS"⟩ : ValidRecord).longitude
        = mkRat (-561495) 10000 :=
  @C2_override_precedence
    [⟨2520025827, "SOJA", "X", "MS", CellVal.s "-21.0", CellVal.s "-56.0"⟩]
    ⟨2520025827, "Soja", "X", "MS", mkRat (-214755) 10000,
      mkRat (-561495) 10000, "BRMS"⟩
    (2520025827, mkRat (-214755) 10000, mkRat (-561495) 10000)
    (by decide) (by decide) (by decide)

/-- C8: every surviving record lies inside the regional bounding box
(latitude in `[-34, 5]`, longitude in `[-74, -34]`, both coordinates
present); and a record whose latitude text `"10.0 N"` parses to `10` —
accepted by the parser — is rejected by the validator and reported in the
diagnostic list. -/
theorem C8_bounding_box :
    (∀ (rs : List RawRecord) (v : ValidRecord), v ∈ (carregar_dados rs).1 →
        -34 ≤ v.latitude ∧ v.latitude ≤ 5
        ∧ -74 ≤ v.longitude ∧ v.longitude ≤ -34)
    ∧ parse_coordinate (Raw.str "10.0 N") true = some 10
    ∧ (carregar_dados [⟨10, "SOJA", "X", "MS", CellVal.s "10.0 N",
        CellVal.s "-56.0"⟩]).1 = []
    ∧ (carregar_dados [⟨10, "SOJA", "X", "MS", CellVal.s "10.0 N",
        CellVal.s "-56.0"⟩]).2 = [(10, some 10, some (mkRat (-56) 1))] :=
  ⟨fun _ _ hv => mem_valid_box hv, by decide, by decide, by decide⟩

/-! ## Lemmas: parsing a plain decimal literal

These lemmas evaluate the whole parser on a string of the shape
`sign ++ digits ++ [. digits]`, the form in which decimal coordinates (and
the re-rendered coordinates of the idempotence claim) reach it. -/

theorem bool_fn_ne {f : Char → Bool} {c d : Char} (h : f c = true)
    (hd : f d = false) : c ≠ d :=
  fun he => by rw [he, hd] at h; exact Bool.noConfusion h

theorem isPySpace_of_lit {c : Char} (h : isLitChar c = true) :
    isPySpace c = false := by
  rw [isPySpace, decide_eq_false (bool_fn_ne h (by decide)),
    decide_eq_false (bool_fn_ne h (by decide)),
    decide_eq_false (bool_fn_ne h (by decide)),
    decide_eq_false (bool_fn_ne h (by decide)),
    decide_eq_false (bool_fn_ne h (by decide)),
    decide_eq_false (bool_fn_ne h (by decide))]
  rfl

theorem isNSWE_of_lit {c : Char} (h : isLitChar c = true) :
    isNSWE c = false := by
  rw [isNSWE, decide_eq_false (bool_fn_ne h (by decide)),
    decide_eq_false (bool_fn_ne h (by decide)),
    decide_eq_false (bool_fn_ne h (by decide)),
    decide_eq_false (bool_fn_ne h (by decide))]
  rfl

theorem upChar_of_lit {c : Char} (h : isLitChar c = true) : upChar c = c := by
  unfold upChar
  split <;> first
    | rfl
    | exact absurd h (by decide)

theorem dropWhile_eq_self_of {p : Char → Bool} {l : List Char}
    (h : ∀ c ∈ l, p c = false) : l.dropWhile p = l := by
  cases l with
  | nil => rfl
  | cons c r =>
    rw [List.dropWhile_cons, h c (List.mem_cons_self c r)]
    simp

theorem pyStrip_eq_self_of {l : List Char} (h : ∀ c ∈ l, isPySpace c = false) :
    pyStrip l = l := by
  rw [pyStrip, dropWhile_eq_self_of h,
    dropWhile_eq_self_of (fun c hc => h c (List.mem_reverse.mp hc)),
    List.reverse_reverse]

theorem map_id_of {f : Char → Char} {l : List Char} (h : ∀ c ∈ l, f c = c) :
    l.map f = l := by
  induction l with
  | nil => rfl
  | cons c r ih =>
    rw [List.map_cons, h c (List.mem_cons_self c r),
      ih (fun d hd => h d (List.mem_cons_of_mem c hd))]

theorem normalize_lit {l : List Char} (h : ∀ c ∈ l, isLitChar c = true) :
    normalize l = l := by
  rw [normalize, pyStrip_eq_self_of (fun c hc => isPySpace_of_lit (h c hc)),
    map_id_of (fun c hc => if_neg (bool_fn_ne (h c hc) (by decide))),
    map_id_of (fun c hc => upChar_of_lit (h c hc))]

theorem headMatches_subset {pat s : List Char} (h : headMatches pat s = true) :
    ∀ c ∈ pat, c ∈ s := by
  induction pat generalizing s with
  | nil => simp
  | cons p ps ih =>
    cases s with
    | nil => exact absurd h (by rw [headMatches]; simp)
    | cons a s2 =>
      rw [headMatches, Bool.and_eq_true] at h
      intro c hc
      rcases List.mem_cons.mp hc with rfl | hc2
      · have : c = a := by simpa using h.1
        rw [this]
        exact List.mem_cons_self a s2
      · exact List.mem_cons_of_mem _ (ih h.2 c hc2)

theorem containsSub_subset {pat l : List Char} (h : containsSub pat l = true) :
    ∀ c ∈ pat, c ∈ l := by
  induction l with
  | nil =>
    rw [containsSub] at h
    exact headMatches_subset h
  | cons a l2 ih =>
    rw [containsSub, Bool.or_eq_true] at h
    rcases h with h | h
    · exact headMatches_subset h
    · intro c hc
      exact List.mem_cons_of_mem _ (ih h c hc)

theorem containsSub_eq_false (p : Char) {pat l : List Char} (hp : p ∈ pat)
    (hl : ∀ c ∈ l, c ≠ p) : containsSub pat l = false := by
  by_contra hc
  rw [Bool.not_eq_false] at hc
  exact hl p (containsSub_subset hc p hp) rfl

theorem findWordAux_none {l : List Char} (prev : Option Char)
    (h : ∀ c ∈ l, isNSWE c = false) : findWordAux prev l = none := by
  induction l generalizing prev with
  | nil => rfl
  | cons c r ih =>
    rw [findWordAux, h c (List.mem_cons_self c r)]
    simp only [Bool.false_and, Bool.false_eq_true, if_false]
    exact ih (some c) (fun d hd => h d (List.mem_cons_of_mem c hd))

theorem extractHem_lit {l : List Char} (h : ∀ c ∈ l, isLitChar c = true) :
    extractHem l = (none, l) := by
  have hN : containsSub NORTE l = false :=
    containsSub_eq_false 'N' (by decide)
      (fun c hc => bool_fn_ne (h c hc) (by decide))
  have hS : containsSub SUL l = false :=
    containsSub_eq_false 'S' (by decide)
      (fun c hc => bool_fn_ne (h c hc) (by decide))
  have hL : containsSub LESTE l = false :=
    containsSub_eq_false 'L' (by decide)
      (fun c hc => bool_fn_ne (h c hc) (by decide))
  have hO : containsSub OESTE l = false :=
    containsSub_eq_false 'O' (by decide)
      (fun c hc => bool_fn_ne (h c hc) (by decide))
  have hw : findWordNSWE l = none :=
    findWordAux_none none (fun c hc => isNSWE_of_lit (h c hc))
  rw [extractHem, if_neg (by rw [hN]; exact Bool.false_ne_true),
    if_neg (by rw [hS]; exact Bool.false_ne_true),
    if_neg (by rw [hL]; exact Bool.false_ne_true),
    if_neg (by rw [hO]; exact Bool.false_ne_true), hw]

theorem takeWhile_all {p : Char → Bool} {xs : List Char}
    (h : ∀ x ∈ xs, p x = true) : xs.takeWhile p = xs := by
  induction xs with
  | nil => rfl
  | cons a l ih =>
    rw [List.takeWhile_cons, h a (List.mem_cons_self a l),
      ih (fun d hd => h d (List.mem_cons_of_mem a hd))]
    simp

theorem dropWhile_all {p : Char → Bool} {xs : List Char}
    (h : ∀ x ∈ xs, p x = true) : xs.dropWhile p = [] := by
  induction xs with
  | nil => rfl
  | cons a l ih =>
    rw [List.dropWhile_cons, h a (List.mem_cons_self a l)]
    simp only [if_true]
    exact ih (fun d hd => h d (List.mem_cons_of_mem a hd))

theorem takeWhile_append_all {p : Char → Bool} {xs ys : List Char}
    (h : ∀ x ∈ xs, p x = true) :
    (xs ++ ys).takeWhile p = xs ++ ys.takeWhile p := by
  induction xs with
  | nil => rfl
  | cons a l ih =>
    rw [List.cons_append, List.takeWhile_cons, h a (List.mem_cons_self a l)]
    simp only [if_true]
    rw [ih (fun d hd => h d (List.mem_cons_of_mem a hd)), List.cons_append]

theorem dropWhile_append_all {p : Char → Bool} {xs ys : List Char}
    (h : ∀ x ∈ xs, p x = true) :
    (xs ++ ys).dropWhile p = ys.dropWhile p := by
  induction xs with
  | nil => rfl
  | cons a l ih =>
    rw [List.cons_append, List.dropWhile_cons, h a (List.mem_cons_self a l)]
    simp only [if_true]
    exact ih (fun d hd => h d (List.mem_cons_of_mem a hd))

theorem lit_chars {sgn ds fs : List Char}
    (hsgn : sgn = [] ∨ sgn = ['-'] ∨ sgn = ['+'])
    (hds : ∀ c ∈ ds, c.isDigit = true) (hfs : ∀ c ∈ fs, c.isDigit = true) :
    ∀ c ∈ sgn ++ ds ++ (if fs.isEmpty then [] else '.' :: fs),
      isLitChar c = true := by
  intro c hc
  simp only [List.mem_append] at hc
  rcases hc with (hc | hc) | hc
  · rcases hsgn with rfl | rfl | rfl
    · exact absurd hc (List.not_mem_nil c)
    · rw [List.mem_singleton] at hc
      rw [hc]
      rfl
    · rw [List.mem_singleton] at hc
      rw [hc]
      rfl
  · rw [isLitChar, hds c hc]
    rfl
  · split at hc
    · exact absurd hc (List.not_mem_nil c)
    · rcases List.mem_cons.mp hc with rfl | hc2
      · rfl
      · rw [isLitChar, hfs c hc2]
        rfl

theorem readUnsigned_lit {ds fs : List Char}
    (hds : ∀ c ∈ ds, c.isDigit = true) (hfs : ∀ c ∈ fs, c.isDigit = true)
    (hne : ds ≠ []) :
    readUnsigned (ds ++ (if fs.isEmpty then [] else '.' :: fs))
      = some (decValue ds fs) := by
  have hdse : ds.isEmpty = false := by
    cases ds
    · exact absurd rfl hne
    · rfl
  by_cases hfe : fs.isEmpty = true
  · rw [if_pos hfe, List.append_nil]
    have hfs0 : fs = [] := by
      cases fs
      · rfl
      · exact absurd hfe (by simp)
    subst hfs0
    unfold readUnsigned
    rw [dropWhile_all hds, takeWhile_all hds]
    simp [hdse]
  · have hfse : fs.isEmpty = false := by
      cases h : fs.isEmpty
      · rfl
      · exact absurd h hfe
    rw [if_neg hfe]
    unfold readUnsigned
    rw [dropWhile_append_all hds,
      show ('.' :: fs).dropWhile Char.isDigit = '.' :: fs from rfl,
      takeWhile_append_all hds,
      show ('.' :: fs).takeWhile Char.isDigit = [] from rfl,
      List.append_nil]
    simp [takeWhile_all hfs, dropWhile_all hfs, hdse, hfse]

theorem takeNum_lit {ds fs : List Char}
    (hds : ∀ c ∈ ds, c.isDigit = true) (hfs : ∀ c ∈ fs, c.isDigit = true)
    (hne : ds ≠ []) :
    takeNum (ds ++ (if fs.isEmpty then [] else '.' :: fs))
      = some (decValue ds fs, []) := by
  have hdse : ds.isEmpty = false := by
    cases ds
    · exact absurd rfl hne
    · rfl
  by_cases hfe : fs.isEmpty = true
  · rw [if_pos hfe, List.append_nil]
    have hfs0 : fs = [] := by
      cases fs
      · rfl
      · exact absurd hfe (by simp)
    subst hfs0
    unfold takeNum
    rw [dropWhile_all hds, takeWhile_all hds]
    simp [hdse]
  · have hfse : fs.isEmpty = false := by
      cases h : fs.isEmpty
      · rfl
      · exact absurd h hfe
    rw [if_neg hfe]
    unfold takeNum
    rw [dropWhile_append_all hds,
      show ('.' :: fs).dropWhile Char.isDigit = '.' :: fs from rfl,
      takeWhile_append_all hds,
      show ('.' :: fs).takeWhile Char.isDigit = [] from rfl,
      List.append_nil]
    simp [takeWhile_all hfs, dropWhile_all hfs, hdse, hfse]

theorem dmsParse_lit {sgn ds fs : List Char}
    (hsgn : sgn = [] ∨ sgn = ['-'] ∨ sgn = ['+'])
    (hds : ∀ c ∈ ds, c.isDigit = true) (hfs : ∀ c ∈ fs, c.isDigit = true)
    (hne : ds ≠ []) :
    dmsParse (sgn ++ ds ++ (if fs.isEmpty then [] else '.' :: fs)) = none := by
  rcases hsgn with rfl | rfl | rfl
  · obtain ⟨d, ds2, rfl⟩ : ∃ d ds2, ds = d :: ds2 := by
      cases ds
      · exact absurd rfl hne
      · exact ⟨_, _, rfl⟩
    rw [List.nil_append]
    have h2 : (dmsSign ((d :: ds2)
        ++ (if fs.isEmpty then [] else '.' :: fs))).2
        = (d :: ds2) ++ (if fs.isEmpty then [] else '.' :: fs) := by
      show ((if d = '-' then
          ((true : Bool), ds2 ++ (if fs.isEmpty then [] else '.' :: fs))
        else ((false : Bool),
          d :: (ds2 ++ (if fs.isEmpty then [] else '.' :: fs))))).2 = _
      rw [if_neg (bool_fn_ne (hds d (List.mem_cons_self d ds2)) (by decide))]
      rfl
    rw [dmsParse, h2, takeNum_lit hds hfs hne]
    rfl
  · have h2 : (dmsSign (['-'] ++ ds
        ++ (if fs.isEmpty then [] else '.' :: fs))).2
        = ds ++ (if fs.isEmpty then [] else '.' :: fs) := rfl
    rw [dmsParse, h2, takeNum_lit hds hfs hne]
    rfl
  · obtain ⟨d, ds2, rfl⟩ : ∃ d ds2, ds = d :: ds2 := by
      cases ds
      · exact absurd rfl hne
      · exact ⟨_, _, rfl⟩
    rw [dmsParse]
    rfl

theorem readDecimal_lit {sgn ds fs : List Char}
    (hsgn : sgn = [] ∨ sgn = ['-'] ∨ sgn = ['+'])
    (hds : ∀ c ∈ ds, c.isDigit = true) (hfs : ∀ c ∈ fs, c.isDigit = true)
    (hne : ds ≠ []) :
    readDecimal (sgn ++ ds ++ (if fs.isEmpty then [] else '.' :: fs))
      = some (if sgn = ['-'] then qNeg (decValue ds fs) else decValue ds fs) := by
  have hlit := lit_chars hsgn hds hfs
  have hru := readUnsigned_lit hds hfs hne
  set fp := (if fs.isEmpty then ([] : List Char) else '.' :: fs) with hfp
  have hstrip : pyStrip (sgn ++ ds ++ fp) = sgn ++ ds ++ fp :=
    pyStrip_eq_self_of (fun c hc => isPySpace_of_lit (hlit c hc))
  rcases hsgn with rfl | rfl | rfl
  · obtain ⟨d, ds2, rfl⟩ : ∃ d ds2, ds = d :: ds2 := by
      cases ds
      · exact absurd rfl hne
      · exact ⟨_, _, rfl⟩
    rw [List.nil_append, List.cons_append] at hstrip ⊢
    rw [readDecimal, hstrip]
    show (if d = '-' then (readUnsigned (ds2 ++ fp)).map qNeg
      else if d = '+' then readUnsigned (ds2 ++ fp)
      else readUnsigned (d :: (ds2 ++ fp)))
      = some (if ([] : List Char) = ['-'] then qNeg (decValue (d :: ds2) fs)
          else decValue (d :: ds2) fs)
    rw [if_neg (bool_fn_ne (hds d (List.mem_cons_self d ds2)) (by decide)),
      if_neg (bool_fn_ne (hds d (List.mem_cons_self d ds2)) (by decide)),
      ← List.cons_append, hru]
    simp
  · rw [List.singleton_append] at hstrip ⊢
    rw [readDecimal, hstrip]
    show (readUnsigned (ds ++ fp)).map qNeg
      = some (if (['-'] : List Char) = ['-'] then qNeg (decValue ds fs)
          else decValue ds fs)
    rw [hru]
    simp
  · rw [List.singleton_append] at hstrip ⊢
    rw [readDecimal, hstrip]
    show readUnsigned (ds ++ fp)
      = some (if (['+'] : List Char) = ['-'] then qNeg (decValue ds fs)
          else decValue ds fs)
    rw [hru]
    simp

theorem resolveSign_none_force (d : ℚ) :
    resolveSign none (if d < 0 then (-1 : ℚ) else 1) (qAbs d) = -|d| := by
  rw [resolveSign, if_neg (by simp), if_neg (by simp)]
  simp only [qMul_eq, qAbs_eq, qNeg_eq]
  by_cases hd : d < 0
  · rw [if_pos hd, if_neg (by
      rw [not_lt]
      nlinarith [abs_nonneg d])]
    ring
  · rw [if_neg hd]
    by_cases h0 : 0 < (1 : ℚ) * |d|
    · rw [if_pos h0]
      ring
    · rw [if_neg h0]
      have h1 : |d| = 0 := le_antisymm (by linarith [not_lt.mp h0]) (abs_nonneg d)
      rw [h1]
      norm_num

/-- Evaluation of the whole parser on a plain decimal literal: whatever the
explicit sign (none, minus or plus), the result before the range check is the
NEGATED magnitude of the literal, by the regional-default rule. -/
theorem parse_literal (sgn ds fs : List Char) (ax : Bool)
    (hsgn : sgn = [] ∨ sgn = ['-'] ∨ sgn = ['+'])
    (hds : ∀ c ∈ ds, c.isDigit = true) (hfs : ∀ c ∈ fs, c.isDigit = true)
    (hne : ds ≠ []) :
    parse_coordinate (Raw.str (String.mk
      (sgn ++ ds ++ (if fs.isEmpty then [] else '.' :: fs)))) ax
      = rangeCheck ax (-(decValue ds fs)) := by
  have hlit := lit_chars hsgn hds hfs
  have key := parse_str_eq (String.mk
    (sgn ++ ds ++ (if fs.isEmpty then [] else '.' :: fs))) ax
  rw [show (String.mk (sgn ++ ds
      ++ (if fs.isEmpty then [] else '.' :: fs))).toList
      = sgn ++ ds ++ (if fs.isEmpty then [] else '.' :: fs) from rfl,
    normalize_lit hlit, extractHem_lit hlit] at key
  have key2 : parseNumeric none
      (pyStrip (sgn ++ ds ++ (if fs.isEmpty then [] else '.' :: fs))) ax
      = Except.ok (parse_coordinate (Raw.str (String.mk
          (sgn ++ ds ++ (if fs.isEmpty then [] else '.' :: fs)))) ax) := key
  rw [pyStrip_eq_self_of (fun c hc => isPySpace_of_lit (hlit c hc)),
    parseNumeric, dmsParse_lit hsgn hds hfs hne, pyFloat,
    readDecimal_lit hsgn hds hfs hne] at key2
  have key3 : Except.ok (rangeCheck ax (resolveSign none
      (if (if sgn = ['-'] then qNeg (decValue ds fs) else decValue ds fs) < 0
        then (-1 : ℚ) else 1)
      (qAbs (if sgn = ['-'] then qNeg (decValue ds fs) else decValue ds fs))))
      = Except.ok (parse_coordinate (Raw.str (String.mk
          (sgn ++ ds ++ (if fs.isEmpty then [] else '.' :: fs)))) ax) := key2
  simp only [Except.ok.injEq] at key3
  rw [← key3, resolveSign_none_force]
  have habs : |if sgn = ['-'] then qNeg (decValue ds fs) else decValue ds fs|
      = decValue ds fs := by
    by_cases hs : sgn = ['-']
    · rw [if_pos hs, qNeg_eq, abs_neg, abs_of_nonneg (decValue_nonneg ds fs)]
    · rw [if_neg hs, abs_of_nonneg (decValue_nonneg ds fs)]
  rw [habs]

/-- C4 (amended): a decimal literal with an explicit NEGATIVE sign whose
value is in the axis range parses to exactly its own value.  (The unamended
claim fails for the other explicit sign character: a `+`-signed literal is
returned negated — see the counterexample.) -/
theorem C4_decimal_roundtrip (ds fs : List Char) (ax : Bool)
    (hds : ∀ c ∈ ds, c.isDigit = true) (hfs : ∀ c ∈ fs, c.isDigit = true)
    (hne : ds ≠ []) (hrange : inRange ax (-(decValue ds fs))) :
    parse_coordinate (Raw.str (String.mk
      (['-'] ++ ds ++ (if fs.isEmpty then [] else '.' :: fs)))) ax
      = some (-(decValue ds fs)) := by
  rw [parse_literal ['-'] ds fs ax (Or.inr (Or.inl rfl)) hds hfs hne,
    rangeCheck_of_inRange hrange]

/-- C4 counterexample: `"+21.5"` is a valid decimal string with an explicit
sign and in-range value `21.5`, but `parse` returns `-21.5`. -/
theorem C4_counterexample :
    parse_coordinate (Raw.str "+21.5") true = some (mkRat (-43) 2)
    ∧ readDecimal "+21.5".toList = some (mkRat 43 2)
    ∧ (mkRat (-43) 2 : ℚ) ≠ mkRat 43 2 :=
  ⟨by decide, by decide, by decide⟩

/-- C4 witness: `"-21.4755"` round-trips. -/
theorem C4_witness :
    parse_coordinate (Raw.str (String.mk (['-'] ++ ['2', '1']
      ++ (if (['4', '7', '5', '5'] : List Char).isEmpty then []
          else '.' :: ['4', '7', '5', '5'])))) true
      = some (-(decValue ['2', '1'] ['4', '7', '5', '5'])) :=
  C4_decimal_roundtrip ['2', '1'] ['4', '7', '5', '5'] true
    (by decide) (by decide) (by decide) (by decide)

/-! ## Lemmas: decimal rendering of a rational and its re-parse -/

theorem natOfDigits_append (l : List Char) (c : Char) :
    natOfDigits (l ++ [c]) = 10 * natOfDigits l + digitVal c := by
  rw [natOfDigits, List.foldl_append]
  rfl

theorem digitVal_digitChar {d : ℕ} (h : d < 10) :
    digitVal (digitChar d) = d := by
  interval_cases d <;> rfl

theorem digitChar_isDigit (d : ℕ) : (digitChar d).isDigit = true := by
  unfold digitChar
  split <;> rfl

theorem natToRevDigitsAux_spec {fuel n : ℕ} (h : n ≤ fuel) :
    natOfDigits (natToRevDigitsAux fuel n).reverse = n
    ∧ ∀ c ∈ natToRevDigitsAux fuel n, c.isDigit = true := by
  induction fuel generalizing n with
  | zero =>
    have hn : n = 0 := Nat.le_zero.mp h
    subst hn
    exact ⟨rfl, by intro c hc; exact absurd hc (List.not_mem_nil c)⟩
  | succ fuel ih =>
    rw [natToRevDigitsAux]
    by_cases hn : n = 0
    · rw [if_pos hn]
      exact ⟨hn.symm, by intro c hc; exact absurd hc (List.not_mem_nil c)⟩
    · rw [if_neg hn]
      have hlt : n / 10 < n := Nat.div_lt_self (Nat.pos_of_ne_zero hn) (by norm_num)
      obtain ⟨ih1, ih2⟩ := ih (n := n / 10) (by omega)
      constructor
      · rw [List.reverse_cons, natOfDigits_append, ih1,
          digitVal_digitChar (Nat.mod_lt n (by norm_num))]
        omega
      · intro c hc
        rcases List.mem_cons.mp hc with rfl | hc2
        · exact digitChar_isDigit _
        · exact ih2 c hc2

theorem natToRevDigits_spec (n : ℕ) :
    natOfDigits (natToRevDigits n).reverse = n
    ∧ ∀ c ∈ natToRevDigits n, c.isDigit = true :=
  natToRevDigitsAux_spec (le_refl n)

theorem natToRevDigitsAux_length {fuel n k : ℕ} (h : n ≤ fuel)
    (hk : n < 10 ^ k) : (natToRevDigitsAux fuel n).length ≤ k := by
  induction fuel generalizing n k with
  | zero =>
    have hn : n = 0 := Nat.le_zero.mp h
    subst hn
    simp [natToRevDigitsAux]
  | succ fuel ih =>
    rw [natToRevDigitsAux]
    by_cases hn : n = 0
    · rw [if_pos hn]
      simp
    · rw [if_neg hn]
      have hk1 : 1 ≤ k := by
        by_contra hk0
        push_neg at hk0
        interval_cases k
        simp at hk
        omega
      have hlt : n / 10 < n := Nat.div_lt_self (Nat.pos_of_ne_zero hn) (by norm_num)
      have hdiv : n / 10 < 10 ^ (k - 1) := by
        rw [Nat.div_lt_iff_lt_mul (by norm_num : 0 < 10)]
        calc n < 10 ^ k := hk
        _ = 10 ^ (k - 1) * 10 := by
          rw [← pow_succ]
          congr 1
          omega
      have := ih (n := n / 10) (k := k - 1) (by omega) hdiv
      simp only [List.length_cons]
      omega

theorem natOfDigits_replicate_zero (j : ℕ) (l : List Char) :
    natOfDigits (List.replicate j '0' ++ l) = natOfDigits l := by
  induction j with
  | zero => rfl
  | succ j ih =>
    rw [List.replicate_succ, List.cons_append]
    exact ih

theorem natToChars_ne_nil (n : ℕ) : natToChars n ≠ [] := by
  rw [natToChars]
  split
  · exact fun h => List.noConfusion h
  · rename_i hn
    have h1 : natToRevDigits n ≠ [] := by
      rw [natToRevDigits]
      cases hf : n with
      | zero => exact absurd hf hn
      | succ m =>
        simp only [natToRevDigitsAux]
        rw [if_neg (by omega : ¬m + 1 = 0)]
        exact fun h => List.noConfusion h
    intro h
    rw [List.reverse_eq_nil_iff] at h
    exact h1 h

theorem natToChars_digits (n : ℕ) : ∀ c ∈ natToChars n, c.isDigit = true := by
  rw [natToChars]
  split
  · intro c hc
    rcases List.mem_cons.mp hc with rfl | hc2
    · rfl
    · exact absurd hc2 (List.not_mem_nil c)
  · intro c hc
    exact (natToRevDigits_spec n).2 c (List.mem_reverse.mp hc)

theorem natOfDigits_natToChars (n : ℕ) : natOfDigits (natToChars n) = n := by
  rw [natToChars]
  split
  · rename_i h
    rw [h]
    rfl
  · exact (natToRevDigits_spec n).1

theorem decExp_spec {q : ℚ} (h : IsFiniteDec q) :
    ∃ k, decExp q = some k ∧ q.den ∣ 10 ^ k := by
  rcases hk : decExp q with - | k
  · rw [decExp, List.find?_eq_none] at hk
    have := hk q.den (List.mem_range.mpr (by omega))
    rw [decide_eq_true_eq] at this
    exact absurd h this
  · refine ⟨k, rfl, ?_⟩
    rw [decExp] at hk
    have h2 := List.find?_some (p := fun j => decide (q.den ∣ 10 ^ j)) hk
    exact of_decide_eq_true h2

theorem neg_mkRat_eq {q : ℚ} {k : ℕ} (hdvd : q.den ∣ 10 ^ k) (hq : q ≤ 0) :
    -(mkRat ((q.num.natAbs * 10 ^ k / q.den : ℕ) : ℤ) (10 ^ k) : ℚ) = q := by
  have hden : (q.den : ℚ) ≠ 0 := Nat.cast_ne_zero.mpr q.den_nz
  have hpow : ((10 : ℚ)) ^ k ≠ 0 := by positivity
  have hdvd2 : q.den ∣ q.num.natAbs * 10 ^ k := Dvd.dvd.mul_left hdvd _
  rw [mkRat_eq_d, Int.cast_natCast, Nat.cast_div hdvd2 hden]
  push_cast [Int.cast_natAbs]
  rw [abs_of_nonpos (by
    have h1 : q.num ≤ 0 := Rat.num_nonpos.mpr hq
    exact_mod_cast h1), div_div]
  have h2 : -(-(q.num : ℚ) * 10 ^ k / ((q.den : ℚ) * 10 ^ k))
      = (q.num : ℚ) / q.den := by
    field_simp
    ring
  rw [h2, Rat.num_div_den]


theorem frac_len (n k : ℕ) : (fracChars n k).length = k := by
  have hb : (natToRevDigits (n % 10 ^ k)).length ≤ k :=
    natToRevDigitsAux_length (le_refl _) (Nat.mod_lt _ (by positivity))
  rw [fracChars, List.length_append, List.length_replicate, List.length_reverse]
  omega

theorem fracChars_digits (n k : ℕ) :
    ∀ c ∈ fracChars n k, c.isDigit = true := by
  intro c hc
  rw [fracChars] at hc
  rcases List.mem_append.mp hc with hc | hc
  · rw [List.eq_of_mem_replicate hc]
    rfl
  · exact (natToRevDigits_spec _).2 c (List.mem_reverse.mp hc)

theorem fracChars_zero (n : ℕ) : fracChars n 0 = [] :=
  List.eq_nil_of_length_eq_zero (frac_len n 0)

theorem decValue_eq_n (n k : ℕ) :
    decValue (natToChars (n / 10 ^ k)) (fracChars n k)
      = mkRat ((n : ℕ) : ℤ) (10 ^ k) := by
  rw [decValue, frac_len, natOfDigits_natToChars, fracChars,
    natOfDigits_replicate_zero, (natToRevDigits_spec _).1]
  congr 1
  have h2 : n / 10 ^ k * 10 ^ k + n % 10 ^ k = n := by
    rw [Nat.mul_comm]
    exact Nat.div_add_mod n (10 ^ k)
  exact_mod_cast h2

/-- Re-parsing a rendered finite-decimal non-positive rational gives the
rational back (up to the range check): the regional default does not flip
it because it is already non-positive. -/
theorem parse_ratStr {q : ℚ} (hfin : IsFiniteDec q) (hq : q ≤ 0) (ax : Bool) :
    parse_coordinate (Raw.str (ratStr q)) ax = rangeCheck ax q := by
  obtain ⟨k, hk, hdvd⟩ := decExp_spec hfin
  have hsgn : (if q.num < 0 then (['-'] : List Char) else [])
      = [] ∨ (if q.num < 0 then (['-'] : List Char) else []) = ['-']
      ∨ (if q.num < 0 then (['-'] : List Char) else []) = ['+'] := by
    by_cases h : q.num < 0
    · rw [if_pos h]
      exact Or.inr (Or.inl rfl)
    · rw [if_neg h]
      exact Or.inl rfl
  by_cases h0 : k = 0
  · subst h0
    have hstr : ratStr q = String.mk
        ((if q.num < 0 then ['-'] else [])
          ++ natToChars (q.num.natAbs * 10 ^ 0 / q.den / 10 ^ 0)
          ++ (if ([] : List Char).isEmpty then []
              else '.' :: ([] : List Char))) := by
      rw [ratStr, hk]
      rfl
    rw [hstr, parse_literal _ _ [] ax hsgn (natToChars_digits _)
      (fun c hc => absurd hc (List.not_mem_nil c)) (natToChars_ne_nil _)]
    congr 1
    have h3 : decValue (natToChars (q.num.natAbs * 10 ^ 0 / q.den / 10 ^ 0)) []
        = mkRat ((q.num.natAbs * 10 ^ 0 / q.den : ℕ) : ℤ) (10 ^ 0) := by
      rw [← fracChars_zero (q.num.natAbs * 10 ^ 0 / q.den)]
      exact decValue_eq_n (q.num.natAbs * 10 ^ 0 / q.den) 0
    rw [h3]
    exact neg_mkRat_eq hdvd hq
  · have hfse : (fracChars (q.num.natAbs * 10 ^ k / q.den) k).isEmpty
        = false := by
      have hlen := frac_len (q.num.natAbs * 10 ^ k / q.den) k
      cases hL : fracChars (q.num.natAbs * 10 ^ k / q.den) k with
      | nil =>
        rw [hL] at hlen
        simp at hlen
        omega
      | cons c r => rfl
    have hstr : ratStr q = String.mk
        ((if q.num < 0 then ['-'] else [])
          ++ natToChars (q.num.natAbs * 10 ^ k / q.den / 10 ^ k)
          ++ ('.' :: fracChars (q.num.natAbs * 10 ^ k / q.den) k)) := by
      rw [ratStr, hk]
      show String.mk ((if q.num < 0 then ['-'] else [])
          ++ natToChars (q.num.natAbs * 10 ^ k / q.den / 10 ^ k)
          ++ (if k = 0 then []
              else '.' :: fracChars (q.num.natAbs * 10 ^ k / q.den) k)) = _
      rw [if_neg h0]
    rw [hstr,
      show ('.' :: fracChars (q.num.natAbs * 10 ^ k / q.den) k : List Char)
        = (if (fracChars (q.num.natAbs * 10 ^ k / q.den) k).isEmpty then []
            else '.' :: fracChars (q.num.natAbs * 10 ^ k / q.den) k) from by
        rw [if_neg (by rw [hfse]; exact Bool.false_ne_true)],
      parse_literal _ _ _ ax hsgn (natToChars_digits _)
        (fracChars_digits _ _) (natToChars_ne_nil _)]
    congr 1
    rw [decValue_eq_n]
    exact neg_mkRat_eq hdvd hq

/-- C8 witness: the box invariant at a concrete surviving record. -/
theorem C8_witness :
    -34 ≤ (mkRat (-214755) 10000 : ℚ) ∧ (mkRat (-214755) 10000 : ℚ) ≤ 5
    ∧ -74 ≤ (mkRat (-561495) 10000 : ℚ)
    ∧ (mkRat (-561495) 10000 : ℚ) ≤ -34 :=
  C8_bounding_box.1
    [⟨2520025827, "SOJA", "X", "MS", CellVal.s "-21.0", CellVal.s "-56.0"⟩]
    ⟨2520025827, "Soja", "X", "MS", mkRat (-214755) 10000,
      mkRat (-561495) 10000, "BRMS"⟩
    (by decide)

/-! ## Lemmas: idempotence of the text normalizations -/

theorem upChar_cases (c : Char) :
    upChar c = c ∨ upChar c ∈ ['A', 'B', 'C', 'D', 'E', 'F', 'G', 'H', 'I',
      'J', 'K', 'L', 'M', 'N', 'O', 'P', 'Q', 'R', 'S', 'T', 'U', 'V', 'W',
      'X', 'Y', 'Z'] := by
  unfold upChar
  split <;> first | exact Or.inl rfl | exact Or.inr (by decide)

theorem upChar_fix_upper {d : Char}
    (h : d ∈ ['A', 'B', 'C', 'D', 'E', 'F', 'G', 'H', 'I', 'J', 'K', 'L',
      'M', 'N', 'O', 'P', 'Q', 'R', 'S', 'T', 'U', 'V', 'W', 'X', 'Y',
      'Z']) : upChar d = d := by
  fin_cases h <;> rfl

theorem up_up (c : Char) : upChar (upChar c) = upChar c := by
  rcases upChar_cases c with h | h
  · rw [h]
    exact h
  · exact upChar_fix_upper h

theorem lowChar_cases (c : Char) :
    lowChar c = c ∨ lowChar c ∈ ['a', 'b', 'c', 'd', 'e', 'f', 'g', 'h',
      'i', 'j', 'k', 'l', 'm', 'n', 'o', 'p', 'q', 'r', 's', 't', 'u', 'v',
      'w', 'x', 'y', 'z'] := by
  unfold lowChar
  split <;> first | exact Or.inl rfl | exact Or.inr (by decide)

theorem lowChar_fix_lower {d : Char}
    (h : d ∈ ['a', 'b', 'c', 'd', 'e', 'f', 'g', 'h', 'i', 'j', 'k', 'l',
      'm', 'n', 'o', 'p', 'q', 'r', 's', 't', 'u', 'v', 'w', 'x', 'y',
      'z']) : lowChar d = d := by
  fin_cases h <;> rfl

theorem low_low (c : Char) : lowChar (lowChar c) = lowChar c := by
  rcases lowChar_cases c with h | h
  · rw [h]
    exact h
  · exact lowChar_fix_lower h

theorem isPySpace_upChar (c : Char) : isPySpace (upChar c) = isPySpace c := by
  unfold upChar
  split <;> first | rfl | decide

theorem isPySpace_lowChar (c : Char) : isPySpace (lowChar c) = isPySpace c := by
  unfold lowChar
  split <;> first | rfl | decide

theorem dropWhile_head_not {p : Char → Bool} {l : List Char} {c : Char}
    {r : List Char} (h : l.dropWhile p = c :: r) : p c = false := by
  induction l with
  | nil => exact absurd h (by simp)
  | cons a l2 ih =>
    rw [List.dropWhile_cons] at h
    split at h
    · exact ih h
    · rename_i hp
      injection h with h1 h2
      subst h1
      cases hpa : p a
      · rfl
      · exact absurd hpa hp

theorem dropWhile_headq_not {p : Char → Bool} {l : List Char} {c : Char}
    (h : (l.dropWhile p).head? = some c) : p c = false := by
  cases hd : l.dropWhile p with
  | nil => rw [hd] at h; exact absurd h (by simp)
  | cons a r =>
    rw [hd, List.head?_cons] at h
    injection h with h1
    subst h1
    exact dropWhile_head_not hd

theorem pyStrip_last_not {l : List Char} {c : Char}
    (h : (pyStrip l).getLast? = some c) : isPySpace c = false := by
  rw [pyStrip, List.getLast?_reverse] at h
  exact dropWhile_headq_not h

theorem pyStrip_head_not {l : List Char} {c : Char}
    (h : (pyStrip l).head? = some c) : isPySpace c = false := by
  rw [pyStrip, List.head?_reverse] at h
  obtain ⟨t, ht⟩ := List.dropWhile_suffix
    (l := (List.dropWhile isPySpace l).reverse) isPySpace
  have hB : ((List.dropWhile isPySpace l).reverse).getLast? = some c := by
    rw [← ht, List.getLast?_append, h]
    rfl
  rw [List.getLast?_reverse] at hB
  exact dropWhile_headq_not hB

theorem dropWhile_eq_self_of_headq {p : Char → Bool} {l : List Char}
    (h : ∀ c, l.head? = some c → p c = false) : l.dropWhile p = l := by
  cases l with
  | nil => rfl
  | cons a r =>
    rw [List.dropWhile_cons, h a rfl]
    simp

theorem pyStrip_eq_self_of_ends {l : List Char}
    (h1 : ∀ c, l.head? = some c → isPySpace c = false)
    (h2 : ∀ c, l.getLast? = some c → isPySpace c = false) :
    pyStrip l = l := by
  rw [pyStrip, dropWhile_eq_self_of_headq h1]
  rw [dropWhile_eq_self_of_headq
      (fun c hc => h2 c (by rwa [List.head?_reverse] at hc)),
    List.reverse_reverse]

theorem pyStrip_idem (l : List Char) : pyStrip (pyStrip l) = pyStrip l :=
  pyStrip_eq_self_of_ends (fun c hc => pyStrip_head_not hc)
    (fun c hc => pyStrip_last_not hc)

theorem dropWhile_map {f : Char → Char} {p : Char → Bool}
    (h : ∀ c, p (f c) = p c) (l : List Char) :
    (l.map f).dropWhile p = (l.dropWhile p).map f := by
  induction l with
  | nil => rfl
  | cons a r ih =>
    rw [List.map_cons, List.dropWhile_cons, List.dropWhile_cons, h a]
    split
    · exact ih
    · rw [List.map_cons]

theorem pyStrip_map {f : Char → Char} (h : ∀ c, isPySpace (f c) = isPySpace c)
    (l : List Char) : pyStrip (l.map f) = (pyStrip l).map f := by
  rw [pyStrip, pyStrip, dropWhile_map h, List.reverse_map, dropWhile_map h,
    List.reverse_map]

theorem normUF_idem (s : String) : normUF (normUF s) = normUF s := by
  rw [normUF, normUF]
  congr 1
  rw [show (String.mk ((pyStrip s.toList).map upChar)).toList
      = (pyStrip s.toList).map upChar from rfl]
  rw [pyStrip_map isPySpace_upChar, pyStrip_idem, List.map_map]
  exact List.map_congr_left (fun c hc => up_up c)

theorem pyCapitalize_idem (y : List Char) :
    pyCapitalize (pyCapitalize y) = pyCapitalize y := by
  cases y with
  | nil => rfl
  | cons a t =>
    simp only [pyCapitalize, List.map_map]
    rw [up_up]
    congr 1
    exact List.map_congr_left (fun c hc => low_low c)

theorem pyCapitalize_strip (x : List Char) :
    pyStrip (pyCapitalize (pyStrip x)) = pyCapitalize (pyStrip x) := by
  apply pyStrip_eq_self_of_ends
  · intro c hc
    cases hy : pyStrip x with
    | nil => rw [hy] at hc; exact absurd hc (by simp [pyCapitalize])
    | cons a t =>
      rw [hy] at hc
      simp only [pyCapitalize, List.head?_cons, Option.some.injEq] at hc
      subst hc
      rw [isPySpace_upChar]
      apply pyStrip_head_not (l := x)
      rw [hy]
      rfl
  · intro c hc
    cases hy : pyStrip x with
    | nil => rw [hy] at hc; exact absurd hc (by simp [pyCapitalize])
    | cons a t =>
      rw [hy] at hc
      cases ht : t with
      | nil =>
        rw [ht] at hc
        simp only [pyCapitalize, List.map_nil, List.getLast?_singleton,
          Option.some.injEq] at hc
        subst hc
        rw [isPySpace_upChar]
        apply pyStrip_last_not (l := x)
        rw [hy, ht]
        rfl
      | cons b t2 =>
        rw [ht] at hc
        rw [show pyCapitalize (a :: b :: t2)
            = upChar a :: lowChar b :: List.map lowChar t2 from rfl,
          List.getLast?_cons_cons,
          show (lowChar b :: List.map lowChar t2)
            = List.map lowChar (b :: t2) from rfl,
          List.getLast?_map, Option.map_eq_some'] at hc
        obtain ⟨d, hd, hdc⟩ := hc
        rw [← hdc, isPySpace_lowChar]
        apply pyStrip_last_not (l := x)
        rw [hy, ht, List.getLast?_cons_cons]
        exact hd

theorem normCultura_idem (s : String) :
    normCultura (normCultura s) = normCultura s := by
  rw [normCultura, normCultura]
  congr 1
  rw [show (String.mk (pyCapitalize (pyStrip s.toList))).toList
      = pyCapitalize (pyStrip s.toList) from rfl]
  rw [pyCapitalize_strip, pyCapitalize_idem]

theorem map_map_filter_map_eq_self {α β γ : Type} (g1 : α → β) (g2 : β → γ)
    (p : γ → Bool) (f2 : γ → α) (l : List α)
    (hk : ∀ v ∈ l, p (g2 (g1 v)) = true)
    (hf : ∀ v ∈ l, f2 (g2 (g1 v)) = v) :
    (((l.map g1).map g2).filter p).map f2 = l := by
  induction l with
  | nil => rfl
  | cons a t ih =>
    rw [List.map_cons, List.map_cons, List.filter_cons,
      hk a (List.mem_cons_self a t), if_pos rfl, List.map_cons,
      hf a (List.mem_cons_self a t),
      ih (fun v hv => hk v (List.mem_cons_of_mem a hv))
        (fun v hv => hf v (List.mem_cons_of_mem a hv))]

/-- C5 (amended): re-running `carregar_dados` on its own surviving output
yields the same surviving set, PROVIDED every surviving latitude is
non-positive (and both coordinates are finite decimals, as every float is).
The unamended claim fails: a positive latitude obtained from an explicit
`N` marker is re-parsed without the marker on the second run, and the
regional default flips its sign — see the counterexample. -/
theorem C5_rerun_idempotent (rs : List RawRecord)
    (h : ∀ v ∈ (carregar_dados rs).1, v.latitude ≤ 0
      ∧ IsFiniteDec v.latitude ∧ IsFiniteDec v.longitude) :
    (carregar_dados ((carregar_dados rs).1.map toRaw)).1
      = (carregar_dados rs).1 := by
  have hpt : ∀ v ∈ (carregar_dados rs).1,
      parseRow (toRaw v) = ⟨v.numero_pi, v.cultura, v.municipio, v.uf,
        some v.latitude, some v.longitude⟩ := by
    intro v hv
    obtain ⟨hla, hfa, hfo⟩ := h v hv
    obtain ⟨hb1, hb2, hb3, hb4⟩ := mem_valid_box hv
    obtain ⟨-, r, hr, hcu, huf⟩ := mem_valid_shape hv
    have hplat : parse_coordinate (Raw.str (ratStr v.latitude)) true
        = some v.latitude := by
      rw [parse_ratStr hfa hla true]
      exact rangeCheck_of_inRange (by
        rw [inRange, if_pos rfl]
        exact ⟨by linarith, by linarith⟩)
    have hplon : parse_coordinate (Raw.str (ratStr v.longitude)) false
        = some v.longitude := by
      rw [parse_ratStr hfo (by linarith) false]
      exact rangeCheck_of_inRange (by
        rw [inRange, if_neg Bool.false_ne_true]
        exact ⟨by linarith, by linarith⟩)
    show ParsedRow.mk v.numero_pi (normCultura v.cultura) v.municipio
        (normUF v.uf) (parse_coordinate (Raw.str (ratStr v.latitude)) true)
        (parse_coordinate (Raw.str (ratStr v.longitude)) false)
      = ⟨v.numero_pi, v.cultura, v.municipio, v.uf,
          some v.latitude, some v.longitude⟩
    rw [hplat, hplon, hcu, normCultura_idem, huf, normUF_idem]
  have hkeep : ∀ v ∈ (carregar_dados rs).1,
      keepRow (parseRow (toRaw v)) = true := by
    intro v hv
    rw [hpt v hv]
    show decide (-34 ≤ v.latitude ∧ v.latitude ≤ 5
      ∧ -74 ≤ v.longitude ∧ v.longitude ≤ -34) = true
    rw [decide_eq_true_eq]
    exact mem_valid_box hv
  have hfin : ∀ v ∈ (carregar_dados rs).1,
      finishRow (parseRow (toRaw v)) ((parseRow (toRaw v)).plat.getD 0)
        ((parseRow (toRaw v)).plon.getD 0) = v := by
    intro v hv
    have hest := (mem_valid_shape hv).1
    rw [hpt v hv]
    show ({ numero_pi := v.numero_pi, cultura := v.cultura,
            municipio := v.municipio, uf := v.uf,
            latitude :=
              (applyCorrecoes v.numero_pi v.latitude v.longitude).1,
            longitude :=
              (applyCorrecoes v.numero_pi v.latitude v.longitude).2,
            estado := "BR" ++ v.uf } : ValidRecord) = v
    rcases hf : correcoes.find? (fun t => t.1 == v.numero_pi) with - | t
    · rw [show applyCorrecoes v.numero_pi v.latitude v.longitude
          = (v.latitude, v.longitude) from by rw [applyCorrecoes, hf],
        ← hest]
    · have ht := List.mem_of_find?_eq_some hf
      have hb := List.find?_some hf
      have hteq : t.1 = v.numero_pi := by
        exact beq_iff_eq.mp hb
      obtain ⟨hla2, hlo2⟩ := mem_valid_override hv ht hteq
      rw [show applyCorrecoes v.numero_pi v.latitude v.longitude
          = (t.2.1, t.2.2) from by rw [applyCorrecoes, hf],
        ← hla2, ← hlo2, ← hest]
  have hL : (carregar_dados ((carregar_dados rs).1.map toRaw)).1
      = ((((carregar_dados rs).1.map toRaw).map parseRow).filter
          keepRow).map
          (fun p => finishRow p (p.plat.getD 0) (p.plon.getD 0)) := rfl
  rw [hL]
  exact map_map_filter_map_eq_self toRaw parseRow keepRow
    (fun p => finishRow p (p.plat.getD 0) (p.plon.getD 0))
    (carregar_dados rs).1 hkeep hfin

/-- C5 counterexample: a row whose latitude cell reads `3.5 N` survives the
first run with latitude `3.5`; re-validating the surviving output renders
that latitude as `3.5`, which — now without the hemisphere marker — is
force-negated by the regional default, so the second run's surviving set
differs from the first. -/
theorem C5_counterexample :
    (carregar_dados ((carregar_dados
      [⟨1, "SOJA", "X", "MS", CellVal.s "3.5 N", CellVal.s "-56.0"⟩]).1.map
        toRaw)).1
      ≠ (carregar_dados
      [⟨1, "SOJA", "X", "MS", CellVal.s "3.5 N", CellVal.s "-56.0"⟩]).1 := by
  decide

/-- C5 witness: a surviving set with non-positive latitudes re-validates to
itself. -/
theorem C5_witness :
    (∀ v ∈ (carregar_dados [⟨5, "Soja", "X", "MS", CellVal.s "-21.0",
        CellVal.s "-56.0"⟩]).1, v.latitude ≤ 0 ∧ IsFiniteDec v.latitude
      ∧ IsFiniteDec v.longitude)
    ∧ (carregar_dados ((carregar_dados [⟨5, "Soja", "X", "MS",
        CellVal.s "-21.0", CellVal.s "-56.0"⟩]).1.map toRaw)).1
      = (carregar_dados [⟨5, "Soja", "X", "MS", CellVal.s "-21.0",
          CellVal.s "-56.0"⟩]).1 :=
  ⟨by decide, C5_rerun_idempotent _ (by decide)⟩

end Mapa
